import Mathlib

/-!
Verification development for the ASD-STE100 linter (`ste100_linter.py`).

Text is modelled as `List Char` (Python string indices are code points).
The ASCII fragments of the Python string methods (`lower`, `upper`,
`isupper`, `isdigit`, `strip`) are modelled explicitly; every pattern used
by the program is ASCII-only, so this is faithful on all data the program
inspects.  Regular-expression scans (`re.finditer`, `re.split`,
`re.findall`) are modelled by deterministic maximal-munch scanners; for
each pattern of the source the character classes of adjacent greedy parts
are disjoint except where noted, so backtracking collapses to maximal
munch, and where it does not (the trailing word boundary of the all-caps
sweep) the backtracking search is modelled explicitly.
-/

namespace STE100

/-- ASCII uppercase letter test. -/
def isUpperCh (c : Char) : Bool := 'A' ≤ c && c ≤ 'Z'

/-- ASCII lowercase letter test. -/
def isLowerCh (c : Char) : Bool := 'a' ≤ c && c ≤ 'z'

/-- ASCII letter test, the class `[A-Za-z]`. -/
def isAlphaCh (c : Char) : Bool := isUpperCh c || isLowerCh c

/-- ASCII digit test, the class `[0-9]`. -/
def isDigitCh (c : Char) : Bool := '0' ≤ c && c ≤ '9'

/-- The regex class `\w`, i.e. `[A-Za-z0-9_]` (ASCII). -/
def isWordCh (c : Char) : Bool := isAlphaCh c || isDigitCh c || c == '_'

/-- The regex class `\s` (ASCII): space, tab, newline, CR, VT, FF. -/
def isSpaceCh (c : Char) : Bool :=
  c == ' ' || c == '\t' || c == '\n' || c == '\r' || c == Char.ofNat 11 || c == Char.ofNat 12

/-- The apostrophe character. -/
def apos : Char := Char.ofNat 39

/-- Characters allowed after the first letter of a token:
the class `[A-Za-z0-9\-\/']` of `tokenize_words_with_spans`. -/
def isTokCh (c : Char) : Bool := isAlphaCh c || isDigitCh c || c == '-' || c == '/' || c == apos

/-- ASCII case folding to lowercase, modelling `str.lower`. -/
def asciiLower (c : Char) : Char := if isUpperCh c then Char.ofNat (c.toNat + 32) else c

/-- ASCII case folding to uppercase, modelling `str.upper`. -/
def asciiUpper (c : Char) : Char := if isLowerCh c then Char.ofNat (c.toNat - 32) else c

/-- `str.lower` on a whole string. -/
def lowerStr (l : List Char) : List Char := l.map asciiLower

/-- `str.upper` on a whole string. -/
def upperStr (l : List Char) : List Char := l.map asciiUpper

/-- `str.strip`: drop leading and trailing whitespace. -/
def pyStrip (l : List Char) : List Char :=
  ((l.dropWhile isSpaceCh).reverse.dropWhile isSpaceCh).reverse

/-- `str.isdigit`: nonempty and all digits. -/
def pyIsdigit (l : List Char) : Bool := !l.isEmpty && l.all isDigitCh

/-- `str.isupper` (ASCII): at least one cased character and no lowercase one. -/
def pyIsupper (l : List Char) : Bool := l.any isAlphaCh && l.all (fun c => !isLowerCh c)

/-- Shorthand turning a string literal into the character list it denotes. -/
def toL (s : String) : List Char := s.toList

/-! ### Morphology helpers (`_is_vowel`, `_ends_with_any`,
`_double_final_consonant_for_ing_ed`, `_verb_inflections`, `_plural_forms`) -/

/-- `_is_vowel`: the lowercased character is one of `aeiou`. -/
def isVowel (c : Char) : Bool :=
  asciiLower c == 'a' || asciiLower c == 'e' || asciiLower c == 'i' ||
  asciiLower c == 'o' || asciiLower c == 'u'

/-- `_ends_with_any`. -/
def endsWithAny (w : List Char) (endings : List (List Char)) : Bool :=
  endings.any (fun e => e.isSuffixOf w)

/-- `w[-k]`, the k-th character from the end (total, with a dummy default;
every use in the source is guarded by a length check). -/
def charFromEnd (w : List Char) (k : Nat) : Char := w.getD (w.length - k) ' '

/-- `w + w[-1]` builds on this: the one-element list holding the last character. -/
def lastCh (w : List Char) : List Char := w.drop (w.length - 1)

/-- `_double_final_consonant_for_ing_ed`. -/
def doubleFinalConsonant (w : List Char) : Bool :=
  if w.length < 3 then false
  else
    let last := asciiLower (charFromEnd w 1)
    if last == 'w' || last == 'x' || last == 'y' then false
    else !isVowel last && isVowel (charFromEnd w 2) && !isVowel (charFromEnd w 3)

/-- `_verb_inflections`: base, 3rd-singular, past, present participle.
The Python function returns a set; the four inserted forms are pairwise
distinct (they differ in length or last character), so a list is faithful. -/
def verbInflections (b : List Char) : List (List Char) :=
  let low := lowerStr b
  let s3 :=
    if endsWithAny low [toL "s", toL "x", toL "z", toL "ch", toL "sh", toL "o"] then b ++ toL "ES"
    else if (toL "y").isSuffixOf low && decide (1 < b.length) && !isVowel (charFromEnd b 2) then
      b.dropLast ++ toL "IES"
    else b ++ toL "S"
  let pst :=
    if (toL "e").isSuffixOf low then b ++ toL "D"
    else if doubleFinalConsonant low then b ++ lastCh b ++ toL "ED"
    else b ++ toL "ED"
  let ing :=
    if (toL "ie").isSuffixOf low then b.dropLast.dropLast ++ toL "YING"
    else if (toL "e").isSuffixOf low && !(toL "ee").isSuffixOf low then b.dropLast ++ toL "ING"
    else if doubleFinalConsonant low then b ++ lastCh b ++ toL "ING"
    else b ++ toL "ING"
  [b, s3, pst, ing]

/-- `_plural_forms`: base plus one plural form. -/
def pluralForms (b : List Char) : List (List Char) :=
  let low := lowerStr b
  let pl :=
    if endsWithAny low [toL "s", toL "x", toL "z", toL "ch", toL "sh"] then b ++ toL "ES"
    else if (toL "y").isSuffixOf low && decide (1 < b.length) && !isVowel (charFromEnd b 2) then
      b.dropLast ++ toL "IES"
    else b ++ toL "S"
  [b, pl]

/-! ### Tokenizer and sentence splitter -/

/-- Scanner for `re.finditer(r"[A-Za-z][A-Za-z0-9\-\/']*", text)`: the greedy
star is a maximal munch, and the scan resumes after each match.  `i` is the
text offset of the head of `cs`.  The first argument is structural fuel;
every call site supplies at least the length of `cs` and every step consumes
at least one character, so the base case is never reached. -/
def tokenizeAux : Nat → List Char → Nat → List (List Char × Nat × Nat)
  | 0, _, _ => []
  | _ + 1, [], _ => []
  | fuel + 1, c :: rest, i =>
    if isAlphaCh c then
      let run := rest.takeWhile isTokCh
      (c :: run, i, i + 1 + run.length) ::
        tokenizeAux fuel (rest.drop run.length) (i + 1 + run.length)
    else tokenizeAux fuel rest (i + 1)

/-- `tokenize_words_with_spans`. -/
def tokenize_words_with_spans (text : List Char) : List (List Char × Nat × Nat) :=
  tokenizeAux text.length text 0

/-- A sentence terminator, the class `[\.!\?]`. -/
def isSentEndCh (c : Char) : Bool := c == '.' || c == '!' || c == '?'

/-- The loop of `split_sentences_with_spans`: cut after each terminator,
strip each chunk, drop empty chunks, and emit a trailing fragment.  The
first argument is structural fuel, as in `tokenizeAux`. -/
def splitSentencesAux : Nat → List Char → Nat → List (List Char × Nat × Nat)
  | 0, _, _ => []
  | fuel + 1, cs, start =>
    match cs.dropWhile (fun c => !isSentEndCh c) with
    | [] =>
      let pre := cs.takeWhile (fun c => !isSentEndCh c)
      let chunk := pyStrip pre
      if chunk.isEmpty then [] else [(chunk, start, start + pre.length)]
    | t :: rest =>
      let pre := cs.takeWhile (fun c => !isSentEndCh c)
      let chunk := pyStrip (pre ++ [t])
      let e := start + pre.length + 1
      (if chunk.isEmpty then [] else [(chunk, start, e)]) ++ splitSentencesAux fuel rest e

/-- `split_sentences_with_spans`. -/
def split_sentences_with_spans (text : List Char) : List (List Char × Nat × Nat) :=
  splitSentencesAux (text.length + 1) text 0

/-- `is_acronym`: `token.isupper() and sum(c.isalpha() for c in token) >= 2`. -/
def is_acronym (token : List Char) : Bool :=
  pyIsupper token && decide (2 ≤ token.countP (fun c => isAlphaCh c))

/-! ### Issues and the lint core -/

/-- The four kinds of finding. -/
inductive IssueType where
  | SentenceTooLong
  | ForbiddenWord
  | UnapprovedWord
  | PassiveVoice
deriving DecidableEq

/-- One finding of `lint_text`: kind, message, half-open span,
optional sentence index, suggestion. -/
structure Issue where
  itype : IssueType
  message : List Char
  span : Nat × Nat
  sentence_index : Option Nat
  suggestion : List Char
deriving DecidableEq

/-- Decimal digits of a natural number, modelling the f-string `{n}`. -/
def natChars (n : Nat) : List Char := Nat.toDigits 10 n

/-- Message of a SentenceTooLong issue. -/
def sentMsg (n maxw : Nat) : List Char :=
  toL "Sentence has " ++ natChars n ++ toL " words (>" ++ natChars maxw ++ toL ")."

/-- Suggestion of a SentenceTooLong issue. -/
def sentSuggestion : List Char := toL "Split into shorter sentences (<= 20 words)."

/-- Message of a ForbiddenWord issue. -/
def forbMsg (tok : List Char) : List Char := toL "Forbidden word: " ++ [apos] ++ tok ++ [apos]

/-- Suggestion of a ForbiddenWord issue. -/
def forbSuggestion : List Char := toL "Replace with an approved alternative per ASD-STE100."

/-- Message of an UnapprovedWord issue. -/
def unappMsg (tok : List Char) : List Char :=
  toL "Not in approved lexicon: " ++ [apos] ++ tok ++ [apos]

/-- Suggestion of an UnapprovedWord issue. -/
def unappSuggestion : List Char := toL "Prefer an approved STE word or rephrase."

/-- Message of a PassiveVoice issue. -/
def passMsg (sub : List Char) : List Char := toL "Possible passive: " ++ [apos] ++ sub ++ [apos]

/-- Suggestion of a PassiveVoice issue. -/
def passSuggestion : List Char := toL "Use active voice where possible."

/-- The SentenceTooLong issue emitted for sentence `s` at index `idx`. -/
def mkSentIssue (maxw idx : Nat) (s : List Char × Nat × Nat) : Issue :=
  ⟨.SentenceTooLong, sentMsg (tokenize_words_with_spans s.1).length maxw,
   (s.2.1, s.2.2), some idx, sentSuggestion⟩

/-- The sentence-length loop of `lint_text`, with `idx` the index of the
first sentence of `l` in the enumeration. -/
def sentIssuesAux (maxw : Nat) (l : List (List Char × Nat × Nat)) (idx : Nat) : List Issue :=
  match l with
  | [] => []
  | s :: rest =>
    (if maxw < (tokenize_words_with_spans s.1).length then [mkSentIssue maxw idx s] else []) ++
    sentIssuesAux maxw rest (idx + 1)

/-- All SentenceTooLong issues of a text. -/
def sentenceIssues (text : List Char) (maxw : Nat) : List Issue :=
  sentIssuesAux maxw (split_sentences_with_spans text) 0

/-- The body of the word-check loop of `lint_text` for one token. -/
def classifyToken (forbidden approved : List (List Char)) (t : List Char × Nat × Nat) :
    Option Issue :=
  let low := lowerStr t.1
  if pyIsdigit low || decide (low.length < 3) || is_acronym t.1 then none
  else if low ∈ forbidden then
    some ⟨.ForbiddenWord, forbMsg t.1, (t.2.1, t.2.2), none, forbSuggestion⟩
  else if low ∉ approved then
    some ⟨.UnapprovedWord, unappMsg t.1, (t.2.1, t.2.2), none, unappSuggestion⟩
  else none

/-- All word-level issues of a text, in token order. -/
def wordIssues (text : List Char) (approved forbidden : List (List Char)) : List Issue :=
  (tokenize_words_with_spans text).filterMap (classifyToken forbidden approved)

/-- The eight alternatives of the passive-voice pattern, in the order the
regex alternation tries them. -/
def beForms : List (List Char) :=
  [toL "am", toL "is", toL "are", toL "was", toL "were", toL "be", toL "been", toL "being"]

/-- Case-insensitive literal prefix test (the pattern is lowercase). -/
def ciPrefix (pat cs : List Char) : Bool := lowerStr (cs.take pat.length) == pat

/-- Match attempt of `(am|is|...|being)\s+\w+ed\b` at the head of `cs`
(the leading `\b` is checked by the caller).  `\s+` and `\w+` are maximal
munches since their classes are disjoint from what follows; the trailing
`\b` forces `\w+ed` to cover the whole maximal `\w` run, which therefore
must have length at least 3 and end in `ed` (case-insensitive). -/
def passiveAltMatch (cs alt : List Char) : Option Nat :=
  if ciPrefix alt cs then
    let r1 := cs.drop alt.length
    let sp := r1.takeWhile isSpaceCh
    if sp.isEmpty then none
    else
      let r2 := r1.drop sp.length
      let run := r2.takeWhile isWordCh
      if decide (3 ≤ run.length) && (toL "ed").isSuffixOf (lowerStr run) then
        some (alt.length + sp.length + run.length)
      else none
  else none

def passiveMatchLen (cs : List Char) : Option Nat :=
  beForms.findSome? (passiveAltMatch cs)

/-- Scanner for `re.finditer` of the passive pattern.  `prevW` records
whether the character before the head of `cs` is a word character (the
leading `\b` holds iff it is not); the scan resumes at the end of each
match, whose last character is a word character. -/
def passiveAux : Nat → List Char → Nat → Bool → List (List Char × Nat × Nat)
  | 0, _, _, _ => []
  | _ + 1, [], _, _ => []
  | fuel + 1, c :: rest, i, prevW =>
    match (if prevW then none else passiveMatchLen (c :: rest)) with
    | some k =>
      (List.take k (c :: rest), i, i + k) ::
        passiveAux fuel ((c :: rest).drop (max k 1)) (i + max k 1) true
    | none => passiveAux fuel rest (i + 1) (isWordCh c)

/-- All PassiveVoice issues of a text, in match order. -/
def passiveIssues (text : List Char) : List Issue :=
  (passiveAux text.length text 0 false).map fun m =>
    ⟨.PassiveVoice, passMsg m.1, (m.2.1, m.2.2), none, passSuggestion⟩

/-- The issue list of `lint_text` after the lexicons are loaded: sentence
length issues, then word-level issues, then passive-voice issues.
`approved` and `forbidden` hold lowercased words, as in the source. -/
def lintIssues (text : List Char) (approved forbidden : List (List Char)) (maxw : Nat) :
    List Issue :=
  sentenceIssues text maxw ++ wordIssues text approved forbidden ++ passiveIssues text

/-! ### Lexicon builder (`HEADWORD_RE`, `HEADER_SPLIT_RE`,
`build_lexicons_from_pdf`).  The raw document text (the output of the
external PDF text extraction) is the input. -/

/-- The headword class of `HEADWORD_RE`: letters, digits, hyphen, slash, space. -/
def isHwCh (c : Char) : Bool := isAlphaCh c || isDigitCh c || c == '-' || c == '/' || c == ' '

/-- The part-of-speech class `[a-zA-Z\. ]` of `HEADWORD_RE`. -/
def isPosCh (c : Char) : Bool := isAlphaCh c || c == '.' || c == ' '

/-- Match attempt of `HEADWORD_RE` right after its leading newline: one
letter, then at least one headword-class character (greedy), then `\s*\(`,
then `([a-zA-Z\. ]+)\)`, then one
`\s`.  Giving characters back from a greedy run can only re-feed spaces to
`\s*`, which lands at the same opening parenthesis, so maximal munch is
exact.  Returns the two groups and the number of characters consumed. -/
def tryHeadword (cs : List Char) : Option (List Char × List Char × Nat) :=
  match cs with
  | [] => none
  | c :: rest =>
    if isAlphaCh c then
      let run := rest.takeWhile isHwCh
      if run.isEmpty then none
      else
        let r1 := rest.drop run.length
        let sp := r1.takeWhile isSpaceCh
        match r1.drop sp.length with
        | '(' :: r3 =>
          let g2 := r3.takeWhile isPosCh
          if g2.isEmpty then none
          else
            match r3.drop g2.length with
            | ')' :: c2 :: _ =>
              if isSpaceCh c2 then
                some (c :: run, g2, 1 + run.length + sp.length + 1 + g2.length + 1 + 1)
              else none
            | _ => none
        | _ => none
    else none

/-- Scanner for `HEADWORD_RE.finditer`: a match can only start at a
newline; the scan resumes at the end of a match (which includes the
trailing whitespace character). -/
def headwordScan : Nat → List Char → List (List Char × List Char)
  | 0, _ => []
  | _ + 1, [] => []
  | fuel + 1, c :: rest =>
    if c == '\n' then
      match tryHeadword rest with
      | some (g1, g2, k) => (g1, g2) :: headwordScan fuel (rest.drop k)
      | none => headwordScan fuel rest
    else headwordScan fuel rest

/-- The classification step of `build_lexicons_from_pdf` for one
headword match: strip the groups, skip rows without a letter, all-caps
rows are approved (with morphology driven by the part-of-speech hint),
all-lowercase rows are forbidden, mixed-case rows are skipped. -/
def addHeadword (acc : List (List Char) × List (List Char)) (m : List Char × List Char) :
    List (List Char) × List (List Char) :=
  let hw := pyStrip m.1
  let pos := lowerStr (pyStrip m.2)
  if !(hw.any isAlphaCh) then acc
  else if upperStr hw = hw ∧ lowerStr hw ≠ hw then
    if 'v' ∈ pos then (acc.1 ++ verbInflections hw, acc.2)
    else if 'n' ∈ pos then (acc.1 ++ pluralForms hw, acc.2)
    else (acc.1 ++ [hw], acc.2)
  else if lowerStr hw = hw ∧ upperStr hw ≠ hw then (acc.1, acc.2 ++ [hw])
  else acc

/-- Match attempt of `HEADER_SPLIT_RE` (`Word\s+Approved meaning/?\s+STE`,
case-insensitive) at the head of `cs`; returns the match length. -/
def tryHeader (cs : List Char) : Option Nat :=
  if ciPrefix (toL "word") cs then
    let r1 := cs.drop 4
    let sp1 := r1.takeWhile isSpaceCh
    if sp1.isEmpty then none
    else
      let r2 := r1.drop sp1.length
      if ciPrefix (toL "approved meaning") r2 then
        let r3 := r2.drop 16
        let slash := if r3.take 1 == ['/'] then 1 else 0
        let r4 := r3.drop slash
        let sp2 := r4.takeWhile isSpaceCh
        if sp2.isEmpty then none
        else if ciPrefix (toL "ste") (r4.drop sp2.length) then
          some (4 + sp1.length + 16 + slash + sp2.length + 3)
        else none
      else none
  else none

/-- `HEADER_SPLIT_RE.split`: cut the text at every non-overlapping,
leftmost match of the header pattern.  `acc` holds the current part,
reversed. -/
def headerSplitAux : Nat → List Char → List Char → List (List Char)
  | 0, acc, _ => [acc.reverse]
  | _ + 1, acc, [] => [acc.reverse]
  | fuel + 1, acc, c :: rest =>
    match tryHeader (c :: rest) with
    | some k => acc.reverse :: headerSplitAux fuel [] ((c :: rest).drop (max k 1))
    | none => headerSplitAux fuel (c :: acc) rest

/-- `HEADER_SPLIT_RE.split(full)`. -/
def headerSplit (cs : List Char) : List (List Char) := headerSplitAux cs.length [] cs

/-- `build_lexicons_from_pdf`, applied to the already extracted document
text: every part after a table header is scanned for headword rows, which
are classified into the approved and forbidden lists. -/
def build_lexicons (full : List Char) : List (List Char) × List (List Char) :=
  ((headerSplit full).drop 1).foldl
    (fun acc sec => (headwordScan sec.length sec).foldl addHeadword acc) ([], [])

/-! ### All-caps sweep (`extract_all_caps_words`) -/

/-- The class `[A-Z0-9\-]` of the all-caps pattern. -/
def isCapsCh (c : Char) : Bool := isUpperCh c || isDigitCh c || c == '-'

/-- Trailing `\b` test for the candidate run prefix of length `L` (the
first letter excluded): the last matched character and the character after
it must differ in word-character-ness (end of text counts as non-word). -/
def capsBoundary (run after : List Char) (L : Nat) : Bool :=
  let lastc := run.getD (L - 1) ' '
  match (if L < run.length then some (run.getD L ' ') else after.head?) with
  | none => isWordCh lastc
  | some c => isWordCh lastc != isWordCh c

/-- Backtracking of the greedy `{2,}` of `\b[A-Z][A-Z0-9\-]{2,}\b`: the
longest prefix of the maximal run (length at least 2) whose end is a word
boundary wins. -/
def capsBestLen (run after : List Char) (L : Nat) : Option Nat :=
  match L with
  | 0 => none
  | 1 => none
  | L' + 2 =>
    if decide (L' + 2 ≤ run.length) && capsBoundary run after (L' + 2) then some (L' + 2)
    else capsBestLen run after (L' + 1)

/-- Scanner for `re.findall(r"\b[A-Z][A-Z0-9\-]{2,}\b", text)`.  `prevW`
records whether the character before the head of `cs` is a word character
(the leading `\b` holds iff it is not, the first character being a
letter). -/
def allCapsAux : Nat → List Char → Bool → List (List Char)
  | 0, _, _ => []
  | _ + 1, [], _ => []
  | fuel + 1, c :: rest, prevW =>
    if !prevW && isUpperCh c then
      let run := rest.takeWhile isCapsCh
      match capsBestLen run (rest.drop run.length) run.length with
      | some L =>
        (c :: run.take L) :: allCapsAux fuel (rest.drop L) (isWordCh (run.getD (L - 1) ' '))
      | none => allCapsAux fuel rest (isWordCh c)
    else allCapsAux fuel rest (isWordCh c)

/-- The heading/label stoplist of `extract_all_caps_words`. -/
def capsStoplist : List (List Char) :=
  [toL "WORD", toL "APPROVED", toL "MEANING", toL "ALTERNATIVES", toL "STE", toL "EXAMPLE",
   toL "NON", toL "PART", toL "SPEECH", toL "PAGE", toL "ISSUE", toL "DICTIONARY", toL "TABLE",
   toL "FIGURE", toL "APPENDIX", toL "SECTION", toL "NOTE"]

/-- `extract_all_caps_words`, applied to the already extracted document
text: all matches of the all-caps pattern, minus purely numeric matches
and the stoplist. -/
def extract_all_caps_words (text : List Char) : List (List Char) :=
  (allCapsAux text.length text false).filterMap fun m =>
    if pyIsdigit m then none
    else if m ∈ capsStoplist then none
    else some m

/-! ### Wordlist files (`ensure_wordlists`, `load_wordlist`) -/

/-- Strict lexicographic order on character lists by code point, the order
`sorted` uses on Python strings. -/
def lexLt (a b : List Char) : Bool :=
  match a, b with
  | [], [] => false
  | [], _ :: _ => true
  | _ :: _, [] => false
  | x :: xs, y :: ys => if x < y then true else if y < x then false else lexLt xs ys

/-- Insert a word into a strictly sorted list, keeping it strictly sorted
(duplicates are dropped, modelling set semantics). -/
def insertWord (w : List Char) (l : List (List Char)) : List (List Char) :=
  match l with
  | [] => [w]
  | x :: xs =>
    if lexLt w x then w :: x :: xs
    else if w = x then x :: xs
    else x :: insertWord w xs

/-- `sorted(set(ws))`: the strictly sorted list of the distinct words. -/
def sortWords (ws : List (List Char)) : List (List Char) := ws.foldr insertWord []

/-- The bytes `ensure_wordlists` writes for one word set: each word of
`sorted(set)` followed by a newline. -/
def wordfileContent (ws : List (List Char)) : List Char :=
  (sortWords ws).foldr (fun w acc => w ++ '\n' :: acc) []

/-- `load_wordlist`: the set of non-blank stripped lines of a file. -/
def parseWordlist (content : List Char) : List (List Char) :=
  (content.splitOn '\n').filterMap fun line =>
    let s := pyStrip line
    if s.isEmpty then none else some s

/-- `lint_text` including its file loading, over an abstract read-only
file system (`fs path` is the content of `path`, or `none` when the file
does not exist; `os.path.exists` agrees with readability).  A missing
approved list is a `FileNotFoundError` (`none` result); missing forbidden
or all-caps lists degrade to empty sets. -/
def lint_text (fs : String → Option (List Char)) (text : List Char)
    (approved_path forbidden_path allcaps_path : String) (max_sentence_words : Nat) :
    Option (List Issue) :=
  match fs approved_path with
  | none => none
  | some content =>
    let approved := (parseWordlist content).map lowerStr
    let approved :=
      match fs allcaps_path with
      | some c2 => approved ++ (parseWordlist c2).map lowerStr
      | none => approved
    let forbidden :=
      match fs forbidden_path with
      | some c3 => (parseWordlist c3).map lowerStr
      | none => ([] : List (List Char))
    some (lintIssues text approved forbidden max_sentence_words)

/-! ## Helper lemmas -/

lemma verbInflections_longer (b : List Char) (hne : b ≠ []) :
    ∃ w ∈ verbInflections b, b.length < w.length := by
  have hpos : 0 < b.length := List.length_pos.mpr hne
  unfold verbInflections
  refine ⟨_, by simp only [List.mem_cons]; exact Or.inr (Or.inl rfl), ?_⟩
  split_ifs <;> simp [toL, List.length_dropLast] <;> omega

lemma pluralForms_longer (b : List Char) (hne : b ≠ []) :
    ∃ w ∈ pluralForms b, b.length < w.length := by
  have hpos : 0 < b.length := List.length_pos.mpr hne
  unfold pluralForms
  refine ⟨_, by simp only [List.mem_cons]; exact Or.inr (Or.inl rfl), ?_⟩
  split_ifs <;> simp [toL, List.length_dropLast] <;> omega

lemma headerSplitAux_no_match (fuel : Nat) (cs : List Char) (acc : List Char)
    (hfuel : cs.length ≤ fuel) (h : ∀ s ∈ cs.tails, tryHeader s = none) :
    headerSplitAux fuel acc cs = [acc.reverse ++ cs] := by
  induction fuel generalizing cs acc with
  | zero =>
    have : cs = [] := List.length_eq_zero.mp (Nat.le_zero.mp hfuel)
    subst this
    simp [headerSplitAux]
  | succ fuel ih =>
    match cs with
    | [] => simp [headerSplitAux]
    | c :: rest =>
      have h0 : tryHeader (c :: rest) = none :=
        h _ ((List.mem_tails _ _).mpr (List.suffix_refl _))
      have h' : ∀ s ∈ rest.tails, tryHeader s = none := by
        intro s hs
        exact h s ((List.mem_tails _ _).mpr
          (((List.mem_tails _ _).mp hs).trans (List.suffix_cons c rest)))
      have hfuel' : rest.length ≤ fuel := by
        simp at hfuel
        omega
      rw [headerSplitAux, h0, ih rest (c :: acc) hfuel' h']
      simp

lemma map_ne_append (f : Char → Char) (x s : List Char) (hs : s.map f ≠ s) :
    (x ++ s).map f ≠ x ++ s := by
  intro h
  rw [List.map_append] at h
  exact hs (List.append_inj_of_length_left h (by simp)).2

/-- Case invariant of the builder: approved entries are fixed by `upper`
and moved by `lower`, forbidden entries the other way around. -/
def lexInv (acc : List (List Char) × List (List Char)) : Prop :=
  (∀ w ∈ acc.1, upperStr w = w ∧ lowerStr w ≠ w) ∧
  (∀ w ∈ acc.2, lowerStr w = w ∧ upperStr w ≠ w)

lemma upper_dropLast {b : List Char} (hb : upperStr b = b) :
    upperStr b.dropLast = b.dropLast := by
  unfold upperStr at *
  rw [List.map_dropLast, hb]

lemma upper_lastCh {b : List Char} (hb : upperStr b = b) :
    upperStr (lastCh b) = lastCh b := by
  unfold upperStr at *
  unfold lastCh
  rw [List.map_drop, hb]

lemma upper_append {x y : List Char} (hx : upperStr x = x) (hy : upperStr y = y) :
    upperStr (x ++ y) = x ++ y := by
  unfold upperStr at *
  rw [List.map_append, hx, hy]

lemma verbInflections_inv {b : List Char} (hA : upperStr b = b ∧ lowerStr b ≠ b) :
    ∀ w ∈ verbInflections b, upperStr w = w ∧ lowerStr w ≠ w := by
  intro w hw
  have hUd : upperStr b.dropLast = b.dropLast := upper_dropLast hA.1
  have hUdd : upperStr b.dropLast.dropLast = b.dropLast.dropLast := upper_dropLast hUd
  have hUl : upperStr (lastCh b) = lastCh b := upper_lastCh hA.1
  unfold verbInflections at hw
  simp only [List.mem_cons, List.not_mem_nil, or_false] at hw
  rcases hw with h | h | h | h <;> subst h
  · exact hA
  · split_ifs
    · exact ⟨upper_append hA.1 (by decide), map_ne_append _ _ _ (by decide)⟩
    · exact ⟨upper_append hUd (by decide), map_ne_append _ _ _ (by decide)⟩
    · exact ⟨upper_append hA.1 (by decide), map_ne_append _ _ _ (by decide)⟩
  · split_ifs
    · exact ⟨upper_append hA.1 (by decide), map_ne_append _ _ _ (by decide)⟩
    · exact ⟨upper_append (upper_append hA.1 hUl) (by decide),
             map_ne_append _ _ _ (by decide)⟩
    · exact ⟨upper_append hA.1 (by decide), map_ne_append _ _ _ (by decide)⟩
  · split_ifs
    · exact ⟨upper_append hUdd (by decide), map_ne_append _ _ _ (by decide)⟩
    · exact ⟨upper_append hUd (by decide), map_ne_append _ _ _ (by decide)⟩
    · exact ⟨upper_append (upper_append hA.1 hUl) (by decide),
             map_ne_append _ _ _ (by decide)⟩
    · exact ⟨upper_append hA.1 (by decide), map_ne_append _ _ _ (by decide)⟩

lemma pluralForms_inv {b : List Char} (hA : upperStr b = b ∧ lowerStr b ≠ b) :
    ∀ w ∈ pluralForms b, upperStr w = w ∧ lowerStr w ≠ w := by
  intro w hw
  have hUd : upperStr b.dropLast = b.dropLast := upper_dropLast hA.1
  unfold pluralForms at hw
  simp only [List.mem_cons, List.not_mem_nil, or_false] at hw
  rcases hw with h | h <;> subst h
  · exact hA
  · split_ifs
    · exact ⟨upper_append hA.1 (by decide), map_ne_append _ _ _ (by decide)⟩
    · exact ⟨upper_append hUd (by decide), map_ne_append _ _ _ (by decide)⟩
    · exact ⟨upper_append hA.1 (by decide), map_ne_append _ _ _ (by decide)⟩

lemma addHeadword_inv {acc : List (List Char) × List (List Char)}
    (h : lexInv acc) (m : List Char × List Char) : lexInv (addHeadword acc m) := by
  unfold addHeadword
  dsimp only
  split_ifs with h1 h2 h3 h4 h5
  · exact h
  · refine ⟨?_, h.2⟩
    intro w hw
    rcases List.mem_append.mp hw with hw | hw
    · exact h.1 w hw
    · exact verbInflections_inv h2 w hw
  · refine ⟨?_, h.2⟩
    intro w hw
    rcases List.mem_append.mp hw with hw | hw
    · exact h.1 w hw
    · exact pluralForms_inv h2 w hw
  · refine ⟨?_, h.2⟩
    intro w hw
    rcases List.mem_append.mp hw with hw | hw
    · exact h.1 w hw
    · simp only [List.mem_singleton] at hw
      subst hw
      exact h2
  · refine ⟨h.1, ?_⟩
    intro w hw
    rcases List.mem_append.mp hw with hw | hw
    · exact h.2 w hw
    · simp only [List.mem_singleton] at hw
      subst hw
      exact h5
  · exact h

lemma foldl_addHeadword_inv (ms : List (List Char × List Char))
    {acc : List (List Char) × List (List Char)} (h : lexInv acc) :
    lexInv (ms.foldl addHeadword acc) := by
  induction ms generalizing acc with
  | nil => exact h
  | cons m rest ih => exact ih (addHeadword_inv h m)

lemma foldl_sections_inv (secs : List (List Char))
    {acc : List (List Char) × List (List Char)} (h : lexInv acc) :
    lexInv (secs.foldl (fun acc sec => (headwordScan sec.length sec).foldl addHeadword acc) acc) := by
  induction secs generalizing acc with
  | nil => exact h
  | cons sec rest ih => exact ih (foldl_addHeadword_inv _ h)

lemma build_lexicons_inv (full : List Char) : lexInv (build_lexicons full) := by
  unfold build_lexicons
  refine foldl_sections_inv _ ⟨?_, ?_⟩ <;> intro w hw <;> simp at hw

lemma lexLt_irrefl (a : List Char) : lexLt a a = false := by
  induction a with
  | nil => rfl
  | cons c rest ih => simp [lexLt, lt_irrefl, ih]

lemma lexLt_trans {a b c : List Char} (h1 : lexLt a b = true) (h2 : lexLt b c = true) :
    lexLt a c = true := by
  induction a generalizing b c with
  | nil =>
    cases b with
    | nil => simp [lexLt] at h1
    | cons y ys =>
      cases c with
      | nil => simp [lexLt] at h2
      | cons z zs => simp [lexLt]
  | cons x xs ih =>
    cases b with
    | nil => simp [lexLt] at h1
    | cons y ys =>
      cases c with
      | nil => simp [lexLt] at h2
      | cons z zs =>
        simp only [lexLt] at h1 h2 ⊢
        rcases lt_trichotomy x y with hxy | hxy | hxy
        · rcases lt_trichotomy y z with hyz | hyz | hyz
          · rw [if_pos (lt_trans hxy hyz)]
          · subst hyz
            rw [if_pos hxy]
          · rw [if_neg (lt_asymm hyz), if_pos hyz] at h2
            simp at h2
        · subst hxy
          rw [if_neg (lt_irrefl x), if_neg (lt_irrefl x)] at h1
          rcases lt_trichotomy x z with hxz | hxz | hxz
          · rw [if_pos hxz]
          · subst hxz
            rw [if_neg (lt_irrefl x), if_neg (lt_irrefl x)] at h2 ⊢
            exact ih h1 h2
          · rw [if_neg (lt_asymm hxz), if_pos hxz] at h2
            simp at h2
        · rw [if_neg (lt_asymm hxy), if_pos hxy] at h1
          simp at h1

lemma lexLt_total {a b : List Char} (h1 : lexLt a b = false) (h2 : a ≠ b) :
    lexLt b a = true := by
  induction a generalizing b with
  | nil =>
    cases b with
    | nil => exact absurd rfl h2
    | cons y ys => simp [lexLt] at h1
  | cons x xs ih =>
    cases b with
    | nil => simp [lexLt]
    | cons y ys =>
      simp only [lexLt] at h1 ⊢
      rcases lt_trichotomy x y with hxy | hxy | hxy
      · rw [if_pos hxy] at h1
        simp at h1
      · subst hxy
        rw [if_neg (lt_irrefl x), if_neg (lt_irrefl x)] at h1 ⊢
        refine ih h1 ?_
        intro hEq
        exact h2 (by rw [hEq])
      · rw [if_pos hxy]

lemma mem_insertWord {y w : List Char} {l : List (List Char)} :
    y ∈ insertWord w l ↔ y = w ∨ y ∈ l := by
  induction l with
  | nil => simp [insertWord]
  | cons x xs ih =>
    simp only [insertWord]
    split_ifs with hlt hEq
    · simp only [List.mem_cons]
    · subst hEq
      simp only [List.mem_cons]
      tauto
    · simp only [List.mem_cons, ih]
      tauto

lemma pairwise_insertWord {w : List Char} {l : List (List Char)}
    (h : List.Pairwise (fun a b => lexLt a b = true) l) :
    List.Pairwise (fun a b => lexLt a b = true) (insertWord w l) := by
  induction l with
  | nil => simp [insertWord]
  | cons x xs ih =>
    rcases List.pairwise_cons.mp h with ⟨hx, hxs⟩
    simp only [insertWord]
    split_ifs with hlt hEq
    · refine List.Pairwise.cons ?_ h
      intro b hb
      rcases List.mem_cons.mp hb with rfl | hb
      · exact hlt
      · exact lexLt_trans hlt (hx b hb)
    · exact h
    · refine List.Pairwise.cons ?_ (ih hxs)
      intro b hb
      rcases mem_insertWord.mp hb with rfl | hb
      · exact lexLt_total (by simpa using hlt) hEq
      · exact hx b hb

lemma pairwise_sortWords (ws : List (List Char)) :
    List.Pairwise (fun a b => lexLt a b = true) (sortWords ws) := by
  unfold sortWords
  induction ws with
  | nil => simp
  | cons w rest ih => exact pairwise_insertWord ih

lemma mem_sortWords {x : List Char} {ws : List (List Char)} :
    x ∈ sortWords ws ↔ x ∈ ws := by
  unfold sortWords
  induction ws with
  | nil => simp
  | cons w rest ih =>
    simp only [List.foldr, mem_insertWord, List.mem_cons, ih]

lemma nodup_sortWords (ws : List (List Char)) : (sortWords ws).Nodup :=
  (pairwise_sortWords ws).imp fun h hEq => by
    subst hEq
    rw [lexLt_irrefl] at h
    exact absurd h (by simp)

lemma sorted_eq_of_mem_iff : ∀ {l1 l2 : List (List Char)},
    List.Pairwise (fun a b => lexLt a b = true) l1 →
    List.Pairwise (fun a b => lexLt a b = true) l2 →
    (∀ x, x ∈ l1 ↔ x ∈ l2) → l1 = l2 := by
  intro l1
  induction l1 with
  | nil =>
    intro l2 _ _ hm
    cases l2 with
    | nil => rfl
    | cons y ys => exact absurd ((hm y).mpr (by simp)) (by simp)
  | cons a l1' ih =>
    intro l2 h1 h2 hm
    cases l2 with
    | nil => exact absurd ((hm a).mp (by simp)) (by simp)
    | cons b l2' =>
      rcases List.pairwise_cons.mp h1 with ⟨ha, h1'⟩
      rcases List.pairwise_cons.mp h2 with ⟨hb, h2'⟩
      have hab : a = b := by
        by_contra hne
        rcases List.mem_cons.mp ((hm a).mp (by simp)) with h | h
        · exact hne h
        · rcases List.mem_cons.mp ((hm b).mpr (by simp)) with h' | h'
          · exact hne h'.symm
          · have := lexLt_trans (ha b h') (hb a h)
            rw [lexLt_irrefl] at this
            exact absurd this (by simp)
      subst hab
      congr 1
      refine ih h1' h2' ?_
      intro x
      constructor
      · intro hx
        rcases List.mem_cons.mp ((hm x).mp (List.mem_cons_of_mem a hx)) with rfl | h
        · have := ha x hx
          rw [lexLt_irrefl] at this
          exact absurd this (by simp)
        · exact h
      · intro hx
        rcases List.mem_cons.mp ((hm x).mpr (List.mem_cons_of_mem a hx)) with rfl | h
        · have := hb x hx
          rw [lexLt_irrefl] at this
          exact absurd this (by simp)
        · exact h

lemma sortWords_eq_of_mem_iff {ws ws' : List (List Char)}
    (h : ∀ w, w ∈ ws ↔ w ∈ ws') : sortWords ws = sortWords ws' := by
  refine sorted_eq_of_mem_iff (pairwise_sortWords ws) (pairwise_sortWords ws') ?_
  intro x
  rw [mem_sortWords, mem_sortWords]
  exact h x

lemma append_toL_ne_nil (x : List Char) (s : String) (hs : s.toList ≠ []) :
    x ++ toL s ≠ [] := by
  intro h
  exact hs (List.append_eq_nil.mp h).2

/-- Nonemptiness invariant of the builder accumulator. -/
def neInv (acc : List (List Char) × List (List Char)) : Prop :=
  (∀ w ∈ acc.1, w ≠ []) ∧ (∀ w ∈ acc.2, w ≠ [])

lemma verbInflections_ne_nil {b : List Char} (hb : b ≠ []) :
    ∀ w ∈ verbInflections b, w ≠ [] := by
  intro w hw
  unfold verbInflections at hw
  simp only [List.mem_cons, List.not_mem_nil, or_false] at hw
  rcases hw with h | h | h | h <;> subst h
  · exact hb
  · split_ifs <;> exact append_toL_ne_nil _ _ (by decide)
  · split_ifs <;> exact append_toL_ne_nil _ _ (by decide)
  · split_ifs <;> exact append_toL_ne_nil _ _ (by decide)

lemma pluralForms_ne_nil {b : List Char} (hb : b ≠ []) :
    ∀ w ∈ pluralForms b, w ≠ [] := by
  intro w hw
  unfold pluralForms at hw
  simp only [List.mem_cons, List.not_mem_nil, or_false] at hw
  rcases hw with h | h <;> subst h
  · exact hb
  · split_ifs <;> exact append_toL_ne_nil _ _ (by decide)

lemma addHeadword_ne {acc : List (List Char) × List (List Char)}
    (h : neInv acc) (m : List Char × List Char) : neInv (addHeadword acc m) := by
  unfold addHeadword
  dsimp only
  split_ifs with h1 h2 h3 h4 h5
  · exact h
  all_goals
    have hwne : pyStrip m.1 ≠ [] := by
      intro hEq
      rw [hEq] at h1
      simp at h1
  · refine ⟨?_, h.2⟩
    intro w hw
    rcases List.mem_append.mp hw with hw | hw
    · exact h.1 w hw
    · exact verbInflections_ne_nil hwne w hw
  · refine ⟨?_, h.2⟩
    intro w hw
    rcases List.mem_append.mp hw with hw | hw
    · exact h.1 w hw
    · exact pluralForms_ne_nil hwne w hw
  · refine ⟨?_, h.2⟩
    intro w hw
    rcases List.mem_append.mp hw with hw | hw
    · exact h.1 w hw
    · simp only [List.mem_singleton] at hw
      subst hw
      exact hwne
  · refine ⟨h.1, ?_⟩
    intro w hw
    rcases List.mem_append.mp hw with hw | hw
    · exact h.2 w hw
    · simp only [List.mem_singleton] at hw
      subst hw
      exact hwne
  · exact h

lemma build_lexicons_ne (full : List Char) : neInv (build_lexicons full) := by
  unfold build_lexicons
  have step : ∀ (ms : List (List Char × List Char))
      (acc : List (List Char) × List (List Char)), neInv acc →
      neInv (ms.foldl addHeadword acc) := by
    intro ms
    induction ms with
    | nil => exact fun acc h => h
    | cons m rest ih => exact fun acc h => ih _ (addHeadword_ne h m)
  have outer : ∀ (secs : List (List Char))
      (acc : List (List Char) × List (List Char)), neInv acc →
      neInv (secs.foldl
        (fun acc sec => (headwordScan sec.length sec).foldl addHeadword acc) acc) := by
    intro secs
    induction secs with
    | nil => exact fun acc h => h
    | cons sec rest ih => exact fun acc h => ih _ (step _ _ h)
  refine outer _ _ ⟨?_, ?_⟩ <;> intro w hw <;> simp at hw

lemma allCapsAux_ne_nil (fuel : Nat) :
    ∀ (cs : List Char) (b : Bool), ∀ m ∈ allCapsAux fuel cs b, m ≠ [] := by
  induction fuel with
  | zero =>
    intro cs b m hm
    simp [allCapsAux] at hm
  | succ fuel ih =>
    intro cs b m hm
    match cs with
    | [] => simp [allCapsAux] at hm
    | c :: rest =>
      simp only [allCapsAux] at hm
      split at hm
      · split at hm
        · rcases List.mem_cons.mp hm with rfl | hm
          · simp
          · exact ih _ _ m hm
        · exact ih _ _ m hm
      · exact ih _ _ m hm

lemma extract_all_caps_ne_nil (text : List Char) :
    ∀ m ∈ extract_all_caps_words text, m ≠ [] := by
  intro m hm
  unfold extract_all_caps_words at hm
  rcases List.mem_filterMap.mp hm with ⟨a, ha, hsome⟩
  have : m = a := by
    by_cases h1 : pyIsdigit a
    · simp [h1] at hsome
    · by_cases h2 : a ∈ capsStoplist
      · simp [h1, h2] at hsome
      · simp [h1, h2] at hsome
        exact hsome.symm
  subst this
  exact allCapsAux_ne_nil _ _ _ m ha

lemma takeWhile_len_le (p : Char → Bool) (l : List Char) :
    (l.takeWhile p).length ≤ l.length := by
  conv_rhs => rw [← List.takeWhile_append_dropWhile (p := p) (l := l)]
  rw [List.length_append]
  exact Nat.le_add_right _ _

lemma tokenizeAux_bounds (fuel : Nat) :
    ∀ (cs : List Char) (i : Nat), ∀ t ∈ tokenizeAux fuel cs i,
      i ≤ t.2.1 ∧ t.2.1 < t.2.2 ∧ t.2.2 ≤ i + cs.length := by
  induction fuel with
  | zero =>
    intro cs i t ht
    simp [tokenizeAux] at ht
  | succ fuel ih =>
    intro cs i t ht
    match cs with
    | [] => simp [tokenizeAux] at ht
    | c :: rest =>
      have hrun := takeWhile_len_le isTokCh rest
      have hdrop := List.length_drop (rest.takeWhile isTokCh).length rest
      simp only [tokenizeAux] at ht
      split at ht
      · rcases List.mem_cons.mp ht with rfl | ht
        · refine ⟨Nat.le_refl _, ?_, ?_⟩
          · show i < i + 1 + (rest.takeWhile isTokCh).length
            omega
          · show i + 1 + (rest.takeWhile isTokCh).length ≤ i + (c :: rest).length
            simp only [List.length_cons]
            omega
        · have h3 := ih _ _ t ht
          simp only [List.length_cons]
          omega
      · have h3 := ih _ _ t ht
        simp only [List.length_cons]
        omega

lemma tokenizeAux_pairwise (fuel : Nat) :
    ∀ (cs : List Char) (i : Nat),
      List.Pairwise (fun a b => a.2.1 < b.2.1) (tokenizeAux fuel cs i) := by
  induction fuel with
  | zero =>
    intro cs i
    simp [tokenizeAux]
  | succ fuel ih =>
    intro cs i
    match cs with
    | [] => simp [tokenizeAux]
    | c :: rest =>
      simp only [tokenizeAux]
      split
      · refine List.Pairwise.cons ?_ (ih _ _)
        intro t ht
        have := (tokenizeAux_bounds fuel _ _ t ht).1
        simp only
        omega
      · exact ih _ _

lemma pairwise_start_inj {α : Type} {l : List (α × Nat × Nat)}
    (h : List.Pairwise (fun a b => a.2.1 < b.2.1) l) :
    ∀ x ∈ l, ∀ y ∈ l, x.2.1 = y.2.1 → x = y := by
  induction l with
  | nil => simp
  | cons a rest ih =>
    rcases List.pairwise_cons.mp h with ⟨ha, h'⟩
    intro x hx y hy hEq
    rcases List.mem_cons.mp hx with h1 | h1
    · rcases List.mem_cons.mp hy with h2 | h2
      · rw [h1, h2]
      · exfalso
        have := ha y h2
        rw [h1] at hEq
        omega
    · rcases List.mem_cons.mp hy with h2 | h2
      · exfalso
        have := ha x h1
        rw [h2] at hEq
        omega
      · exact ih h' x h1 y h2 hEq

lemma nodup_of_pairwise_start {α : Type} {l : List (α × Nat × Nat)}
    (h : List.Pairwise (fun a b => a.2.1 < b.2.1) l) : l.Nodup :=
  h.imp fun hlt hEq => by
    rw [hEq] at hlt
    omega

lemma countP_filterMap_eq {α : Type} (f : α → Option Issue) (p : Issue → Bool) :
    ∀ l : List α,
      (l.filterMap f).countP p = l.countP (fun a => ((f a).map p).getD false) := by
  intro l
  induction l with
  | nil => rfl
  | cons a rest ih =>
    rw [List.filterMap_cons]
    cases hfa : f a with
    | none => simp [hfa, List.countP_cons, ih]
    | some b => simp [hfa, List.countP_cons, ih]

lemma countP_eq_of_unique {α : Type} {l : List α} {q : α → Bool} {x : α}
    (hnd : l.Nodup) (hx : x ∈ l) (huniq : ∀ y ∈ l, q y = true → y = x) :
    l.countP q = if q x then 1 else 0 := by
  induction l with
  | nil => simp at hx
  | cons a rest ih =>
    rcases List.nodup_cons.mp hnd with ⟨hna, hnd'⟩
    rw [List.countP_cons]
    rcases List.mem_cons.mp hx with rfl | hx
    · have h0 : rest.countP q = 0 := by
        rw [List.countP_eq_zero]
        intro b hb hqb
        have hbx := huniq b (List.mem_cons_of_mem _ hb) hqb
        subst hbx
        exact hna hb
      simp [h0]
    · have hqa : ¬ q a = true := by
        intro hq
        have hax := huniq a (by simp) hq
        subst hax
        exact hna hx
      have hrec := ih hnd' hx (fun y hy hq => huniq y (List.mem_cons_of_mem _ hy) hq)
      simp [hqa, hrec]

lemma splitSentencesAux_bounds (fuel : Nat) :
    ∀ (cs : List Char) (start : Nat), ∀ s ∈ splitSentencesAux fuel cs start,
      start ≤ s.2.1 ∧ s.2.1 ≤ s.2.2 ∧ s.2.2 ≤ start + cs.length := by
  induction fuel with
  | zero =>
    intro cs start s hs
    simp [splitSentencesAux] at hs
  | succ fuel ih =>
    intro cs start s hs
    have hsplit := congrArg List.length
      (List.takeWhile_append_dropWhile (p := fun c => !isSentEndCh c) (l := cs))
    rw [List.length_append] at hsplit
    simp only [splitSentencesAux] at hs
    split at hs
    · rename_i hdrop
      rw [hdrop] at hsplit
      split at hs
      · simp at hs
      · simp only [List.mem_singleton] at hs
        subst hs
        simp only [List.length_nil] at hsplit
        refine ⟨Nat.le_refl _, Nat.le_add_right _ _, ?_⟩
        show start + (cs.takeWhile (fun c => !isSentEndCh c)).length ≤ start + cs.length
        omega
    · rename_i t rest hdrop
      rw [hdrop] at hsplit
      simp only [List.length_cons] at hsplit
      rcases List.mem_append.mp hs with hs | hs
      · split at hs
        · simp at hs
        · simp only [List.mem_singleton] at hs
          subst hs
          refine ⟨Nat.le_refl _, ?_, ?_⟩
          · show start ≤ start + (cs.takeWhile (fun c => !isSentEndCh c)).length + 1
            omega
          · show start + (cs.takeWhile (fun c => !isSentEndCh c)).length + 1 ≤ start + cs.length
            omega
      · have h3 := ih rest _ s hs
        refine ⟨by omega, h3.2.1, by omega⟩

lemma sentIssuesAux_mem (maxw : Nat) :
    ∀ (l : List (List Char × Nat × Nat)) (n : Nat), ∀ i ∈ sentIssuesAux maxw l n,
      ∃ j, ∃ h : j < l.length, i = mkSentIssue maxw (n + j) (l.get ⟨j, h⟩) ∧
        maxw < (tokenize_words_with_spans (l.get ⟨j, h⟩).1).length := by
  intro l
  induction l with
  | nil =>
    intro n i hi
    simp [sentIssuesAux] at hi
  | cons s rest ih =>
    intro n i hi
    simp only [sentIssuesAux] at hi
    rcases List.mem_append.mp hi with hi | hi
    · split at hi
      · rename_i hcnt
        simp only [List.mem_singleton] at hi
        subst hi
        exact ⟨0, by simp, by simp, by simpa using hcnt⟩
      · simp at hi
    · rcases ih (n + 1) i hi with ⟨j, hj, hEq, hcnt⟩
      refine ⟨j + 1, by simpa using hj, ?_, by simpa using hcnt⟩
      rw [hEq]
      congr 1
      omega

lemma sentIssuesAux_count (maxw : Nat) :
    ∀ (l : List (List Char × Nat × Nat)) (n j : Nat),
      (sentIssuesAux maxw l n).countP (fun i => decide (i.sentence_index = some (n + j)))
        = ((l.get? j).map
            (fun s => if maxw < (tokenize_words_with_spans s.1).length then 1 else 0)).getD 0 := by
  intro l
  induction l with
  | nil =>
    intro n j
    simp [sentIssuesAux]
  | cons s rest ih =>
    intro n j
    simp only [sentIssuesAux]
    rw [List.countP_append]
    cases j with
    | zero =>
      have htail : (sentIssuesAux maxw rest (n + 1)).countP
          (fun i => decide (i.sentence_index = some (n + 0))) = 0 := by
        rw [List.countP_eq_zero]
        intro i hi
        rcases sentIssuesAux_mem maxw rest (n + 1) i hi with ⟨k, hk, hEq, _⟩
        rw [hEq]
        simp only [mkSentIssue, decide_eq_true_eq, Option.some.injEq]
        omega
      rw [htail]
      split
      · rename_i hc
        simp [mkSentIssue, hc]
      · rename_i hc
        simp [mkSentIssue, hc]
    | succ j' =>
      have hhead : (if maxw < (tokenize_words_with_spans s.1).length
            then [mkSentIssue maxw n s] else []).countP
          (fun i => decide (i.sentence_index = some (n + (j' + 1)))) = 0 := by
        split
        · simp only [List.countP_cons, List.countP_nil, mkSentIssue, decide_eq_true_eq,
            Option.some.injEq]
          have : ¬ (n = n + (j' + 1)) := by omega
          simp [this]
        · simp
      rw [hhead]
      have hrec := ih (n + 1) j'
      rw [show (n + 1) + j' = n + (j' + 1) by omega] at hrec
      rw [Nat.zero_add, hrec]
      rfl

lemma classifyToken_spec {forbidden approved : List (List Char)}
    {t : List Char × Nat × Nat} {i : Issue}
    (h : classifyToken forbidden approved t = some i) :
    i.span = (t.2.1, t.2.2) ∧ i.sentence_index = none ∧
      (i.itype = IssueType.ForbiddenWord ∨ i.itype = IssueType.UnapprovedWord) := by
  unfold classifyToken at h
  dsimp only at h
  split_ifs at h
  all_goals first
    | (rcases Option.some.inj h with rfl; exact ⟨rfl, rfl, Or.inl rfl⟩)
    | (rcases Option.some.inj h with rfl; exact ⟨rfl, rfl, Or.inr rfl⟩)
    | simp at h

lemma passiveAltMatch_le {cs alt : List Char} {k : Nat} (h : passiveAltMatch cs alt = some k) :
    k ≤ cs.length := by
  unfold passiveAltMatch at h
  dsimp only at h
  split_ifs at h with h1 h2 h3
  all_goals try simp at h
  subst h
  have halt : alt.length ≤ cs.length := by
    unfold ciPrefix at h1
    have hEq : lowerStr (cs.take alt.length) = alt := beq_iff_eq.mp h1
    have hlen := congrArg List.length hEq
    unfold lowerStr at hlen
    rw [List.length_map, List.length_take] at hlen
    omega
  have hsp := takeWhile_len_le isSpaceCh (cs.drop alt.length)
  have hrun := takeWhile_len_le isWordCh
    (cs.drop (alt.length + ((cs.drop alt.length).takeWhile isSpaceCh).length))
  rw [List.length_drop] at hsp
  rw [List.length_drop] at hrun
  omega

lemma passiveMatchLen_le {cs : List Char} {k : Nat} (h : passiveMatchLen cs = some k) :
    k ≤ cs.length := by
  unfold passiveMatchLen at h
  rcases List.exists_of_findSome?_eq_some h with ⟨alt, _, hsome⟩
  exact passiveAltMatch_le hsome


lemma passiveAux_bounds (fuel : Nat) :
    ∀ (cs : List Char) (i : Nat) (b : Bool), ∀ m ∈ passiveAux fuel cs i b,
      i ≤ m.2.1 ∧ m.2.1 ≤ m.2.2 ∧ m.2.2 ≤ i + cs.length := by
  induction fuel with
  | zero =>
    intro cs i b m hm
    simp [passiveAux] at hm
  | succ fuel ih =>
    intro cs i b m hm
    match cs with
    | [] => simp [passiveAux] at hm
    | c :: rest =>
      simp only [passiveAux] at hm
      split at hm
      · rename_i k hk
        have hk' : passiveMatchLen (c :: rest) = some k := by
          cases b with
          | true => exact absurd hk (by simp)
          | false => simpa using hk
        have hkle := passiveMatchLen_le hk'
        simp only [List.length_cons] at hkle
        rcases List.mem_cons.mp hm with rfl | hm
        · refine ⟨Nat.le_refl _, ?_, ?_⟩
          · show i ≤ i + k
            omega
          · show i + k ≤ i + (c :: rest).length
            simp only [List.length_cons]
            omega
        · have h3 := ih _ _ _ m hm
          have hd := List.length_drop (max k 1) (c :: rest)
          simp only [List.length_cons] at hd ⊢
          omega
      · have h3 := ih _ _ _ m hm
        simp only [List.length_cons]
        omega

lemma passiveAux_pairwise (fuel : Nat) :
    ∀ (cs : List Char) (i : Nat) (b : Bool),
      List.Pairwise (fun a b' => a.2.1 < b'.2.1) (passiveAux fuel cs i b) := by
  induction fuel with
  | zero =>
    intro cs i b
    simp [passiveAux]
  | succ fuel ih =>
    intro cs i b
    match cs with
    | [] => simp [passiveAux]
    | c :: rest =>
      simp only [passiveAux]
      split
      · rename_i k hk
        refine List.Pairwise.cons ?_ (ih _ _ _)
        intro m hm
        have h3 := (passiveAux_bounds fuel _ _ _ m hm).1
        show i < m.2.1
        omega
      · exact ih _ _ _

lemma wordIssues_pairwise (text : List Char) (approved forbidden : List (List Char)) :
    List.Pairwise (fun a b => a.span.1 < b.span.1) (wordIssues text approved forbidden) := by
  unfold wordIssues
  refine List.Pairwise.filterMap _ ?_ (tokenizeAux_pairwise _ _ _)
  intro a b hab x hx y hy
  have hxe : classifyToken forbidden approved a = some x := Option.mem_def.mp hx
  have hye : classifyToken forbidden approved b = some y := Option.mem_def.mp hy
  rw [(classifyToken_spec hxe).1, (classifyToken_spec hye).1]
  exact hab

lemma sentIssuesAux_pairwise (maxw : Nat) :
    ∀ (l : List (List Char × Nat × Nat)) (n : Nat),
      List.Pairwise (fun a b => a.sentence_index.getD 0 < b.sentence_index.getD 0)
        (sentIssuesAux maxw l n) := by
  intro l
  induction l with
  | nil =>
    intro n
    simp [sentIssuesAux]
  | cons s rest ih =>
    intro n
    simp only [sentIssuesAux]
    rw [List.pairwise_append]
    refine ⟨?_, ih (n + 1), ?_⟩
    · split <;> simp
    · intro a ha b hb
      rcases sentIssuesAux_mem maxw rest (n + 1) b hb with ⟨j, hj, hEq, _⟩
      have haEq : a = mkSentIssue maxw n s := by
        split at ha
        · simpa using ha
        · simp at ha
      rw [haEq, hEq]
      simp only [mkSentIssue, Option.getD_some]
      omega

lemma sentIssuesAux_types (maxw : Nat) (l : List (List Char × Nat × Nat)) (n : Nat) :
    ∀ i ∈ sentIssuesAux maxw l n, i.itype = IssueType.SentenceTooLong := by
  intro i hi
  rcases sentIssuesAux_mem maxw l n i hi with ⟨j, hj, hEq, _⟩
  rw [hEq]
  rfl

lemma passiveIssues_types (text : List Char) :
    ∀ i ∈ passiveIssues text, i.itype = IssueType.PassiveVoice := by
  intro i hi
  rcases List.mem_map.mp hi with ⟨m, _, hEq⟩
  rw [← hEq]

lemma wordIssues_types (text : List Char) (approved forbidden : List (List Char)) :
    ∀ i ∈ wordIssues text approved forbidden,
      i.itype = IssueType.ForbiddenWord ∨ i.itype = IssueType.UnapprovedWord := by
  intro i hi
  rcases List.mem_filterMap.mp hi with ⟨t, _, hEq⟩
  exact (classifyToken_spec hEq).2.2

lemma lint_countP_word (text : List Char) (approved forbidden : List (List Char)) (maxw : Nat)
    (p : Issue → Bool)
    (hp : ∀ i, p i = true →
      i.itype = IssueType.ForbiddenWord ∨ i.itype = IssueType.UnapprovedWord) :
    (lintIssues text approved forbidden maxw).countP p
      = (wordIssues text approved forbidden).countP p := by
  unfold lintIssues
  rw [List.countP_append, List.countP_append]
  have h1 : (sentenceIssues text maxw).countP p = 0 := by
    rw [List.countP_eq_zero]
    intro i hi hpi
    have htype := sentIssuesAux_types maxw _ 0 i hi
    rcases hp i hpi with h | h <;> simp [htype] at h
  have h2 : (passiveIssues text).countP p = 0 := by
    rw [List.countP_eq_zero]
    intro i hi hpi
    have htype := passiveIssues_types text i hi
    rcases hp i hpi with h | h <;> simp [htype] at h
  rw [h1, h2]
  omega

lemma lint_countP_sent (text : List Char) (approved forbidden : List (List Char)) (maxw : Nat)
    (p : Issue → Bool)
    (hp : ∀ i, p i = true → i.itype = IssueType.SentenceTooLong) :
    (lintIssues text approved forbidden maxw).countP p
      = (sentenceIssues text maxw).countP p := by
  unfold lintIssues
  rw [List.countP_append, List.countP_append]
  have h1 : (wordIssues text approved forbidden).countP p = 0 := by
    rw [List.countP_eq_zero]
    intro i hi hpi
    have htype := wordIssues_types text approved forbidden i hi
    have := hp i hpi
    rcases htype with h | h <;> simp [this] at h
  have h2 : (passiveIssues text).countP p = 0 := by
    rw [List.countP_eq_zero]
    intro i hi hpi
    have htype := passiveIssues_types text i hi
    have := hp i hpi
    simp [this] at htype
  rw [h1, h2]
  omega

lemma wordIssues_countP_unique (text : List Char) (approved forbidden : List (List Char))
    (tok : List Char) (s e : Nat)
    (hmem : (tok, s, e) ∈ tokenize_words_with_spans text) (p : Issue → Bool)
    (hp : ∀ i, p i = true → i.span = (s, e)) :
    (wordIssues text approved forbidden).countP p
      = if ((classifyToken forbidden approved (tok, s, e)).map p).getD false then 1 else 0 := by
  unfold wordIssues tokenize_words_with_spans
  unfold tokenize_words_with_spans at hmem
  rw [countP_filterMap_eq]
  refine countP_eq_of_unique (nodup_of_pairwise_start (tokenizeAux_pairwise _ _ _)) hmem ?_
  intro y hy hq
  cases hcy : classifyToken forbidden approved y with
  | none =>
    rw [hcy] at hq
    simp at hq
  | some i =>
    rw [hcy] at hq
    simp at hq
    have hspan := (classifyToken_spec hcy).1
    have hise := hp i hq
    have hEq : (y.2.1, y.2.2) = (s, e) := hspan.symm.trans hise
    refine pairwise_start_inj (tokenizeAux_pairwise _ _ _) y hy (tok, s, e) hmem ?_
    simpa using congrArg Prod.fst hEq

lemma classifyToken_skip {forbidden approved : List (List Char)} {tok : List Char} {s e : Nat}
    (h : (pyIsdigit (lowerStr tok) || decide ((lowerStr tok).length < 3) ||
      is_acronym tok) = true) :
    classifyToken forbidden approved (tok, s, e) = none := by
  unfold classifyToken
  dsimp only
  rw [if_pos h]

lemma classifyToken_forb {forbidden approved : List (List Char)} {tok : List Char} {s e : Nat}
    (hskip : (pyIsdigit (lowerStr tok) || decide ((lowerStr tok).length < 3) ||
      is_acronym tok) = false)
    (hf : lowerStr tok ∈ forbidden) :
    classifyToken forbidden approved (tok, s, e)
      = some ⟨IssueType.ForbiddenWord, forbMsg tok, (s, e), none, forbSuggestion⟩ := by
  unfold classifyToken
  dsimp only
  rw [if_neg (by simp [hskip]), if_pos hf]

lemma classifyToken_unapp {forbidden approved : List (List Char)} {tok : List Char} {s e : Nat}
    (hskip : (pyIsdigit (lowerStr tok) || decide ((lowerStr tok).length < 3) ||
      is_acronym tok) = false)
    (hf : lowerStr tok ∉ forbidden) (ha : lowerStr tok ∉ approved) :
    classifyToken forbidden approved (tok, s, e)
      = some ⟨IssueType.UnapprovedWord, unappMsg tok, (s, e), none, unappSuggestion⟩ := by
  unfold classifyToken
  dsimp only
  rw [if_neg (by simp [hskip]), if_neg hf, if_pos ha]

lemma countP_congr_mem {l : List Issue} {p q : Issue → Bool}
    (h : ∀ i ∈ l, p i = q i) : l.countP p = l.countP q := by
  induction l with
  | nil => rfl
  | cons a rest ih =>
    rw [List.countP_cons, List.countP_cons, h a (by simp),
      ih (fun i hi => h i (List.mem_cons_of_mem _ hi))]

/-! ## Claims -/

/-- C5: for every non-empty uppercase base, `_verb_inflections` and
`_plural_forms` return the base plus at least one distinct derived form,
and they produce the documented forms for STOP and BOX. -/
theorem c5_morphology_total (b : List Char) (hne : b ≠ [])
    (hup : ∀ c ∈ b, isLowerCh c = false) :
    b ∈ verbInflections b ∧ (∃ w ∈ verbInflections b, w ≠ b) ∧
    b ∈ pluralForms b ∧ (∃ w ∈ pluralForms b, w ≠ b) ∧
    toL "STOP" ∈ verbInflections (toL "STOP") ∧
    toL "STOPS" ∈ verbInflections (toL "STOP") ∧
    toL "STOPPED" ∈ verbInflections (toL "STOP") ∧
    toL "STOPPING" ∈ verbInflections (toL "STOP") ∧
    toL "BOX" ∈ pluralForms (toL "BOX") ∧
    toL "BOXES" ∈ pluralForms (toL "BOX") := by
  refine ⟨?_, ?_, ?_, ?_, by decide, by decide, by decide, by decide, by decide, by decide⟩
  · unfold verbInflections; simp
  · obtain ⟨w, hw, hlen⟩ := verbInflections_longer b hne
    exact ⟨w, hw, fun hEq => by simp [hEq] at hlen⟩
  · unfold pluralForms; simp
  · obtain ⟨w, hw, hlen⟩ := pluralForms_longer b hne
    exact ⟨w, hw, fun hEq => by simp [hEq] at hlen⟩

/-- Witness for C5 at the base STOP. -/
theorem c5_witness : toL "STOP" ∈ verbInflections (toL "STOP") :=
  (c5_morphology_total (toL "STOP") (by decide) (by decide)).1

/-- The end-to-end example text of the specification. -/
def c6Text : List Char :=
  toL "The operator starts the system and does the procedure in 25 minutes."

/-- The approved set the specification lists for the example text:
operator, start(s), system, do(es), procedure, minute(s). -/
def c6Approved : List (List Char) :=
  [toL "operator", toL "start", toL "starts", toL "system", toL "do", toL "does",
   toL "procedure", toL "minute", toL "minutes"]

/-- C6 counterexample: with the approved set exactly as listed in the
claim, linting the example text does NOT yield zero UnapprovedWord issues:
the tokens The, the, and (absent from the listed set) yield four of them. -/
theorem c6_counterexample :
    ¬ ((lintIssues c6Text c6Approved [] 20).countP
        (fun i => decide (i.itype = IssueType.UnapprovedWord)) = 0) ∧
    (lintIssues c6Text c6Approved [] 20).countP
        (fun i => decide (i.itype = IssueType.UnapprovedWord)) = 4 := by
  decide

/-- C6 amended: once the approved set also contains the small words
"the" and "and" that occur in the text, linting yields zero ForbiddenWord,
zero UnapprovedWord and zero PassiveVoice issues. -/
theorem c6_amended :
    (lintIssues c6Text (c6Approved ++ [toL "the", toL "and"]) [] 20).countP
        (fun i => decide (i.itype = IssueType.ForbiddenWord)) = 0 ∧
    (lintIssues c6Text (c6Approved ++ [toL "the", toL "and"]) [] 20).countP
        (fun i => decide (i.itype = IssueType.UnapprovedWord)) = 0 ∧
    (lintIssues c6Text (c6Approved ++ [toL "the", toL "and"]) [] 20).countP
        (fun i => decide (i.itype = IssueType.PassiveVoice)) = 0 := by
  decide

/-- C7: when the table-header pattern matches nowhere in the document
text, the builder returns both lexicons empty (and, being a total
function, it cannot fail on any row). -/
theorem c7_no_header_empty_build (full : List Char)
    (h : ∀ s ∈ full.tails, tryHeader s = none) :
    build_lexicons full = ([], []) := by
  unfold build_lexicons headerSplit
  rw [headerSplitAux_no_match full.length full [] (Nat.le_refl _) h]
  simp

/-- Witness for C7 on a concrete headerless text. -/
theorem c7_witness : build_lexicons (toL "hello world.") = ([], []) :=
  c7_no_header_empty_build (toL "hello world.") (by decide)

/-- C1: for every text and lexicons the lint output is exactly three
phases: all SentenceTooLong issues in sentence order, then all
ForbiddenWord/UnapprovedWord issues in left-to-right text order, then all
PassiveVoice issues in left-to-right text order. -/
theorem c1_three_phase_order (text : List Char) (approved forbidden : List (List Char))
    (maxw : Nat) :
    lintIssues text approved forbidden maxw =
      sentenceIssues text maxw ++ wordIssues text approved forbidden ++ passiveIssues text ∧
    (sentenceIssues text maxw).all
      (fun i => decide (i.itype = IssueType.SentenceTooLong)) = true ∧
    List.Pairwise (fun a b => a.sentence_index.getD 0 < b.sentence_index.getD 0)
      (sentenceIssues text maxw) ∧
    (wordIssues text approved forbidden).all
      (fun i => decide (i.itype = IssueType.ForbiddenWord) ||
        decide (i.itype = IssueType.UnapprovedWord)) = true ∧
    List.Pairwise (fun a b => a.span.1 < b.span.1) (wordIssues text approved forbidden) ∧
    (passiveIssues text).all (fun i => decide (i.itype = IssueType.PassiveVoice)) = true ∧
    List.Pairwise (fun a b => a.span.1 < b.span.1) (passiveIssues text) := by
  refine ⟨rfl, ?_, sentIssuesAux_pairwise maxw _ 0, ?_,
    wordIssues_pairwise text approved forbidden, ?_, ?_⟩
  · rw [List.all_eq_true]
    intro i hi
    simpa using sentIssuesAux_types maxw _ 0 i hi
  · rw [List.all_eq_true]
    intro i hi
    rcases wordIssues_types text approved forbidden i hi with h | h <;> simp [h]
  · rw [List.all_eq_true]
    intro i hi
    simpa using passiveIssues_types text i hi
  · unfold passiveIssues
    refine List.Pairwise.map _ ?_ (passiveAux_pairwise _ _ _ _)
    intro a b hab
    simpa using hab

/-- C9: every issue of the lint output has a span within the bounds of
the input text. -/
theorem c9_issue_spans_in_bounds (text : List Char) (approved forbidden : List (List Char))
    (maxw : Nat) :
    (lintIssues text approved forbidden maxw).all
      (fun i => decide (i.span.1 ≤ i.span.2) && decide (i.span.2 ≤ text.length)) = true := by
  rw [List.all_eq_true]
  intro i hi
  rw [Bool.and_eq_true, decide_eq_true_eq, decide_eq_true_eq]
  unfold lintIssues at hi
  rcases List.mem_append.mp hi with hi2 | hpass
  · rcases List.mem_append.mp hi2 with hsent | hword
    · unfold sentenceIssues at hsent
      rcases sentIssuesAux_mem maxw _ 0 i hsent with ⟨j, hj, hEq, _⟩
      have hmem := List.get_mem (split_sentences_with_spans text) j hj
      have hb := splitSentencesAux_bounds (text.length + 1) text 0 _ hmem
      rw [hEq]
      simp only [mkSentIssue]
      omega
    · unfold wordIssues at hword
      rcases List.mem_filterMap.mp hword with ⟨t, ht, hEq⟩
      have hb := tokenizeAux_bounds text.length text 0 t ht
      rw [(classifyToken_spec hEq).1]
      omega
  · unfold passiveIssues at hpass
    rcases List.mem_map.mp hpass with ⟨m, hm, hEq⟩
    have hb := passiveAux_bounds text.length text 0 false m hm
    rw [← hEq]
    simp only
    omega

/-- C2: per-token word checks: a purely numeric, short, or acronym token
yields no word-level issue for its occurrence; otherwise a forbidden
(lowercased) token yields exactly one ForbiddenWord issue and no
UnapprovedWord issue for that occurrence; otherwise a token outside the
effective approved set yields exactly one UnapprovedWord issue. -/
theorem c2_word_check_per_token (text : List Char) (approved forbidden : List (List Char))
    (maxw : Nat) (tok : List Char) (s e : Nat)
    (hmem : (tok, s, e) ∈ tokenize_words_with_spans text) :
    ((pyIsdigit (lowerStr tok) || decide ((lowerStr tok).length < 3) ||
        is_acronym tok) = true →
      (lintIssues text approved forbidden maxw).countP
        (fun i => (decide (i.itype = IssueType.ForbiddenWord) ||
          decide (i.itype = IssueType.UnapprovedWord)) && decide (i.span = (s, e))) = 0) ∧
    ((pyIsdigit (lowerStr tok) || decide ((lowerStr tok).length < 3) ||
        is_acronym tok) = false →
      lowerStr tok ∈ forbidden →
      (lintIssues text approved forbidden maxw).countP
        (fun i => decide (i.itype = IssueType.ForbiddenWord) &&
          decide (i.span = (s, e))) = 1 ∧
      (lintIssues text approved forbidden maxw).countP
        (fun i => decide (i.itype = IssueType.UnapprovedWord) &&
          decide (i.span = (s, e))) = 0) ∧
    ((pyIsdigit (lowerStr tok) || decide ((lowerStr tok).length < 3) ||
        is_acronym tok) = false →
      lowerStr tok ∉ forbidden → lowerStr tok ∉ approved →
      (lintIssues text approved forbidden maxw).countP
        (fun i => decide (i.itype = IssueType.UnapprovedWord) &&
          decide (i.span = (s, e))) = 1) := by
  refine ⟨?_, ?_, ?_⟩
  · intro hskip
    rw [lint_countP_word text approved forbidden maxw _
      (fun i hpi => by simp at hpi; exact hpi.1)]
    rw [wordIssues_countP_unique text approved forbidden tok s e hmem _
      (fun i hpi => by simp at hpi; exact hpi.2)]
    rw [classifyToken_skip hskip]
    simp
  · intro hskip hf
    constructor
    · rw [lint_countP_word text approved forbidden maxw _
        (fun i hpi => by simp at hpi; exact Or.inl hpi.1)]
      rw [wordIssues_countP_unique text approved forbidden tok s e hmem _
        (fun i hpi => by simp at hpi; exact hpi.2)]
      rw [classifyToken_forb hskip hf]
      simp
    · rw [lint_countP_word text approved forbidden maxw _
        (fun i hpi => by simp at hpi; exact Or.inr hpi.1)]
      rw [wordIssues_countP_unique text approved forbidden tok s e hmem _
        (fun i hpi => by simp at hpi; exact hpi.2)]
      rw [classifyToken_forb hskip hf]
      simp
  · intro hskip hf ha
    rw [lint_countP_word text approved forbidden maxw _
      (fun i hpi => by simp at hpi; exact Or.inr hpi.1)]
    rw [wordIssues_countP_unique text approved forbidden tok s e hmem _
      (fun i hpi => by simp at hpi; exact hpi.2)]
    rw [classifyToken_unapp hskip hf ha]
    simp

/-- Witness for C2: in "the stop go" with forbidden = {stop}, the token
stop at offsets 4..8 yields exactly one ForbiddenWord issue and no
UnapprovedWord issue. -/
theorem c2_witness :
    (lintIssues (toL "the stop go") [] [toL "stop"] 20).countP
      (fun i => decide (i.itype = IssueType.ForbiddenWord) &&
        decide (i.span = (4, 8))) = 1 ∧
    (lintIssues (toL "the stop go") [] [toL "stop"] 20).countP
      (fun i => decide (i.itype = IssueType.UnapprovedWord) &&
        decide (i.span = (4, 8))) = 0 :=
  (c2_word_check_per_token (toL "the stop go") [] [toL "stop"] 20 (toL "stop") 4 8
    (by decide)).2.1 (by decide) (by decide)

/-- C3: with the default maximum of 20, a sentence of exactly 20 tokens
yields no SentenceTooLong issue, and a sentence of 21 tokens yields
exactly one, whose message states 21 and whose span is the whole
sentence. -/
theorem c3_sentence_length_boundary (text : List Char) (approved forbidden : List (List Char))
    (idx : Nat) (h : idx < (split_sentences_with_spans text).length) :
    ((tokenize_words_with_spans ((split_sentences_with_spans text).get ⟨idx, h⟩).1).length = 20 →
      (lintIssues text approved forbidden 20).countP
        (fun i => decide (i.itype = IssueType.SentenceTooLong) &&
          decide (i.sentence_index = some idx)) = 0) ∧
    ((tokenize_words_with_spans ((split_sentences_with_spans text).get ⟨idx, h⟩).1).length = 21 →
      (lintIssues text approved forbidden 20).countP
        (fun i => decide (i.itype = IssueType.SentenceTooLong) &&
          decide (i.sentence_index = some idx)) = 1 ∧
      (∀ i ∈ lintIssues text approved forbidden 20,
        i.itype = IssueType.SentenceTooLong → i.sentence_index = some idx →
          i.message = toL "Sentence has 21 words (>20)." ∧
          i.span = (((split_sentences_with_spans text).get ⟨idx, h⟩).2.1,
            ((split_sentences_with_spans text).get ⟨idx, h⟩).2.2))) := by
  have hcount : (lintIssues text approved forbidden 20).countP
      (fun i => decide (i.itype = IssueType.SentenceTooLong) &&
        decide (i.sentence_index = some idx))
      = if 20 < (tokenize_words_with_spans
          ((split_sentences_with_spans text).get ⟨idx, h⟩).1).length then 1 else 0 := by
    rw [lint_countP_sent text approved forbidden 20 _
      (fun i hpi => by simp at hpi; exact hpi.1)]
    unfold sentenceIssues
    have hcongr : (sentIssuesAux 20 (split_sentences_with_spans text) 0).countP
        (fun i => decide (i.itype = IssueType.SentenceTooLong) &&
          decide (i.sentence_index = some idx))
        = (sentIssuesAux 20 (split_sentences_with_spans text) 0).countP
          (fun i => decide (i.sentence_index = some (0 + idx))) := by
      apply countP_congr_mem
      intro i hi
      have htype := sentIssuesAux_types 20 _ 0 i hi
      simp [htype]
    rw [hcongr, sentIssuesAux_count 20 (split_sentences_with_spans text) 0 idx,
      List.get?_eq_get h]
    simp
  constructor
  · intro h20
    rw [hcount, h20]
    simp
  · intro h21
    refine ⟨by rw [hcount, h21]; simp, ?_⟩
    intro i hi htype hsidx
    unfold lintIssues at hi
    rcases List.mem_append.mp hi with hi2 | hpass
    · rcases List.mem_append.mp hi2 with hsent | hword
      · unfold sentenceIssues at hsent
        rcases sentIssuesAux_mem 20 _ 0 i hsent with ⟨j, hj, hEq, hcnt⟩
        have hj_idx : j = idx := by
          rw [hEq] at hsidx
          simp [mkSentIssue] at hsidx
          omega
        subst hj_idx
        have hg : (split_sentences_with_spans text).get ⟨j, hj⟩
            = (split_sentences_with_spans text).get ⟨j, h⟩ := rfl
        rw [hEq]
        constructor
        · show sentMsg (tokenize_words_with_spans
            ((split_sentences_with_spans text).get ⟨j, hj⟩).1).length 20
            = toL "Sentence has 21 words (>20)."
          rw [hg, h21]
          decide
        · show ((((split_sentences_with_spans text).get ⟨j, hj⟩).2.1,
            ((split_sentences_with_spans text).get ⟨j, hj⟩).2.2) : Nat × Nat) = _
          rw [hg]
      · have htw := wordIssues_types text approved forbidden i hword
        rcases htw with hh | hh <;> simp [htype] at hh
    · have htp := passiveIssues_types text i hpass
      simp [htype] at htp

/-- Witness for C3 on a 21-word sentence. -/
theorem c3_witness :
    (lintIssues (toL "a b c d e f g h i j k l m n o p q r s t u.") [] [] 20).countP
      (fun i => decide (i.itype = IssueType.SentenceTooLong) &&
        decide (i.sentence_index = some 0)) = 1 :=
  ((c3_sentence_length_boundary (toL "a b c d e f g h i j k l m n o p q r s t u.") [] [] 0
    (by decide)).2 (by decide)).1

/-- C4: for every input document text, the approved and forbidden sets
produced by one build pass are disjoint: every approved word is fixed by
upper-casing, every forbidden word is moved by it. -/
theorem c4_lexicons_disjoint (full : List Char) (w : List Char)
    (hA : w ∈ (build_lexicons full).1) : w ∉ (build_lexicons full).2 := by
  intro hF
  have h := build_lexicons_inv full
  exact (h.2 w hF).2 (h.1 w hA).1

/-- A two-row dictionary table for the C4 witness. -/
def c4Sample : List Char := toL "Word Approved meaning STE\nSTOP (v) \nabout (a) "

/-- Witness for C4: on the sample table, STOP is built approved and is
not in the forbidden set. -/
theorem c4_witness : toL "STOP" ∉ (build_lexicons c4Sample).2 :=
  c4_lexicons_disjoint c4Sample (toL "STOP") (by decide)

/-- C8: the lexicon build is a pure function of the document text
(building twice yields the same sets), the written bytes depend only on
the set of words (so equal sets give byte-identical files), and for each
of the three files the written line list is strictly sorted, duplicate
free and contains no blank line. -/
theorem c8_build_sorted_output (full : List Char) :
    (build_lexicons full = build_lexicons full ∧
     extract_all_caps_words full = extract_all_caps_words full) ∧
    (∀ ws ws' : List (List Char), (∀ w, w ∈ ws ↔ w ∈ ws') →
      wordfileContent ws = wordfileContent ws') ∧
    (List.Pairwise (fun a b => lexLt a b = true) (sortWords (build_lexicons full).1) ∧
     (sortWords (build_lexicons full).1).Nodup ∧ [] ∉ sortWords (build_lexicons full).1) ∧
    (List.Pairwise (fun a b => lexLt a b = true) (sortWords (build_lexicons full).2) ∧
     (sortWords (build_lexicons full).2).Nodup ∧ [] ∉ sortWords (build_lexicons full).2) ∧
    (List.Pairwise (fun a b => lexLt a b = true) (sortWords (extract_all_caps_words full)) ∧
     (sortWords (extract_all_caps_words full)).Nodup ∧
     [] ∉ sortWords (extract_all_caps_words full)) := by
  refine ⟨⟨rfl, rfl⟩, ?_,
    ⟨pairwise_sortWords _, nodup_sortWords _, ?_⟩,
    ⟨pairwise_sortWords _, nodup_sortWords _, ?_⟩,
    ⟨pairwise_sortWords _, nodup_sortWords _, ?_⟩⟩
  · intro ws ws' h
    unfold wordfileContent
    rw [sortWords_eq_of_mem_iff h]
  · intro hmem
    exact (build_lexicons_ne full).1 [] (mem_sortWords.mp hmem) rfl
  · intro hmem
    exact (build_lexicons_ne full).2 [] (mem_sortWords.mp hmem) rfl
  · intro hmem
    exact extract_all_caps_ne_nil full [] (mem_sortWords.mp hmem) rfl

/-- Witness for C8: two stores of the same word set produce identical
bytes. -/
theorem c8_witness :
    wordfileContent [toL "b", toL "a", toL "a"] = wordfileContent [toL "a", toL "b"] :=
  (c8_build_sorted_output []).2.1 [toL "b", toL "a", toL "a"] [toL "a", toL "b"]
    (by intro w; simp only [List.mem_cons, List.not_mem_nil, or_false]; tauto)

/-- C10: the three lexicon files are not treated alike at lint time: a
missing approved list is a file-not-found error before any issue is
produced, while missing forbidden or all-caps lists are silently treated
as empty and the full issue list is still returned. -/
theorem c10_lexicon_file_handling (fs : String → Option (List Char)) (text : List Char)
    (ap fp cp : String) (maxw : Nat) :
    (fs ap = none → lint_text fs text ap fp cp maxw = none) ∧
    (∀ c, fs ap = some c → fs fp = none → fs cp = none →
      lint_text fs text ap fp cp maxw =
        some (lintIssues text ((parseWordlist c).map lowerStr) [] maxw)) := by
  constructor
  · intro h
    simp [lint_text, h]
  · intro c hc hf hcp
    simp [lint_text, hc, hf, hcp]

/-- A one-file read-only store for the C10 witness. -/
def c10fs : String → Option (List Char) :=
  fun p => if p = "approved.txt" then some (toL "go\nstop") else none

/-- Witness for C10 on concrete file stores. -/
theorem c10_witness :
    lint_text (fun _ => none) (toL "Stop now.") "a" "f" "c" 20 = none ∧
    lint_text c10fs (toL "Stop now.") "approved.txt" "f" "c" 20 =
      some (lintIssues (toL "Stop now.") ((parseWordlist (toL "go\nstop")).map lowerStr) [] 20) :=
  ⟨(c10_lexicon_file_handling (fun _ => none) (toL "Stop now.") "a" "f" "c" 20).1 rfl,
   (c10_lexicon_file_handling c10fs (toL "Stop now.") "approved.txt" "f" "c" 20).2
     (toL "go\nstop") (by decide) (by decide) (by decide)⟩

end STE100
